import Mathlib

/-!
Verification development for the `fls` directory-listing utility.

Shallow embedding of the core components from `src/directory.rs`,
`src/output.rs` and `src/main.rs`:
  * style classification of directory entries (`RawDirEntry.style`, `style_for`);
  * the natural/version comparator `vercmp`;
  * the raw `getdents64` buffer enumerator (`Directory.openDir`) and its
    record iterator;
  * the grid layout engine (`write_grid` and its row-count search);
  * the buffered, style-aware output writer (`BufferedStdout`);
  * the per-argument open loop of `run` in `main.rs`.

Bytes are modelled as `Nat` (all byte values are below 256 and no operation
here overflows), byte strings as `List Nat`, errno values as `Int`.
Loops are modelled with an explicit fuel argument that is provably
sufficient at every call site appearing in a theorem.
-/

deriving instance DecidableEq for Except

set_option maxRecDepth 100000

namespace Fls

/-- Display styles, from `src/style.rs` (the enum variants used by the code
under `src/`). -/
inductive Style where
  | BlueBold | CyanBold | RedBold | GreenBold | Red | Magenta | White
  | Reset | Gray | YellowBold | Yellow | Cyan | Blue
deriving DecidableEq, Repr

/-- Modelled from the spec: the style-to-escape-sequence mapping collaborator
(`Style::to_bytes`, in `src/style.rs` which is not under `src/`) "converts an
abstract StyleClass/Style value to raw terminal bytes" (spec section 6).  Each
style is a fixed, nonempty ANSI escape sequence `ESC [ ... m`. -/
def Style.toBytes : Style → List Nat
  | .Reset => [27, 91, 109]
  | .BlueBold => [27, 91, 51, 52, 59, 49, 109]
  | .CyanBold => [27, 91, 51, 54, 59, 49, 109]
  | .RedBold => [27, 91, 51, 49, 59, 49, 109]
  | .GreenBold => [27, 91, 51, 50, 59, 49, 109]
  | .YellowBold => [27, 91, 51, 51, 59, 49, 109]
  | .Red => [27, 91, 51, 49, 109]
  | .Magenta => [27, 91, 51, 53, 109]
  | .White => [27, 91, 51, 55, 109]
  | .Gray => [27, 91, 51, 56, 109]
  | .Yellow => [27, 91, 51, 51, 109]
  | .Cyan => [27, 91, 51, 54, 109]
  | .Blue => [27, 91, 51, 52, 109]

/-- The buffered writer of `src/output.rs` (`struct BufferedStdout`).  The
4096-byte array together with `buf_used` is modelled as the list `buf` of the
used prefix; `flushed` records the bytes already written to the output stream
by `write_to_stdout`. -/
structure BufferedStdout where
  buf : List Nat
  flushed : List Nat
  style : Style
  isTerminal : Bool
deriving DecidableEq, Repr

/-- `BufferedStdout::terminal()`. -/
def BufferedStdout.terminal : BufferedStdout :=
  { buf := [], flushed := [], style := .Reset, isTerminal := true }

/-- `BufferedStdout::file()`. -/
def BufferedStdout.file : BufferedStdout :=
  { buf := [], flushed := [], style := .Reset, isTerminal := false }

/-- `BufferedStdout::push`: append a byte, flushing the full buffer first. -/
def BufferedStdout.push (o : BufferedStdout) (b : Nat) : BufferedStdout :=
  if o.buf.length < 4096 then { o with buf := o.buf ++ [b] }
  else { o with flushed := o.flushed ++ o.buf, buf := [b] }

/-- `BufferedStdout::write`: push every byte of a slice. -/
def BufferedStdout.write (o : BufferedStdout) (bytes : List Nat) : BufferedStdout :=
  bytes.foldl BufferedStdout.push o

/-- `BufferedStdout::style` (named `setStyle` here because the structure field
already uses the name `style`): emit the escape sequence only when the
destination is a terminal and the style actually changes. -/
def BufferedStdout.setStyle (o : BufferedStdout) (s : Style) : BufferedStdout :=
  if o.isTerminal ∧ o.style ≠ s then { o.write s.toBytes with style := s }
  else o

/-- The total byte stream observably produced through a writer: bytes already
flushed followed by the bytes still buffered (flushed on drop). -/
def emitted (o : BufferedStdout) : List Nat := o.flushed ++ o.buf

/-- Decimal digits of a natural number, little helper for `itoa`-style
formatting (fuel-based; `n+1` fuel always suffices). -/
def natToBytesAux : Nat → Nat → List Nat
  | 0, _ => []
  | fuel + 1, n => if n < 10 then [48 + n] else natToBytesAux fuel (n / 10) ++ [48 + n % 10]

/-- `itoa::Buffer::format` for unsigned values. -/
def natToBytes (n : Nat) : List Nat := natToBytesAux (n + 1) n

/-- `itoa::Buffer::format` for signed values. -/
def intToBytes (i : Int) : List Nat :=
  if i < 0 then 45 :: natToBytes i.natAbs else natToBytes i.natAbs

/-- `BufferedStdout::align_right`. -/
def BufferedStdout.alignRight (o : BufferedStdout) (value width : Nat) : BufferedStdout :=
  let formatted := natToBytes value
  (o.write (List.replicate (width - formatted.length) 32)).write formatted

/-! ## Style classifier (`src/directory.rs`) -/

/-- `libc::DT_DIR`. -/
def DT_DIR : Nat := 4
/-- `libc::DT_REG`. -/
def DT_REG : Nat := 8
/-- `libc::DT_LNK`. -/
def DT_LNK : Nat := 10
/-- `libc::ENOENT`. -/
def ENOENT : Int := 2
/-- `libc::EACCES`. -/
def EACCES : Int := 13
/-- `libc::ENOTDIR`. -/
def ENOTDIR : Int := 20
/-- `libc::F_OK`. -/
def F_OK : Int := 0
/-- `libc::X_OK`. -/
def X_OK : Int := 1

/-- `name.rsplit(|b| *b == b'.').next()` in `style_for`: the maximal suffix of
`name` containing no `'.'` (byte 46); the whole name when it has no dot.  In
Rust this `rsplit(...).next()` is always `Some`, so the `None => White` arm of
the source is dead code. -/
def lastSeg (name : List Nat) : List Nat :=
  (name.reverse.takeWhile (fun b => b ≠ 46)).reverse

/-- The fixed extension set `compressed` of `style_for`. -/
def compressedExts : List (List Nat) :=
  [[116, 97, 114], [103, 122], [116, 103, 122], [120, 122]]

/-- The fixed extension set `document` of `style_for`. -/
def documentExts : List (List Nat) := [[112, 100, 102], [101, 112, 115]]

/-- The fixed extension set `media` of `style_for`. -/
def mediaExts : List (List Nat) := [[112, 110, 103], [109, 112, 52]]

/-- `style_for` from `src/directory.rs`: extension-based classification. -/
def style_for (name : List Nat) : Style :=
  let extension := lastSeg name
  if extension ∈ compressedExts then .Red
  else if extension ∈ documentExts ∨ extension ∈ mediaExts then .Magenta
  else .White

/-- `<RawDirEntry as DirEntry>::style` from `src/directory.rs`.  The
`faccessat` probe against the open directory is a parameter mapping the
access mode (`F_OK`/`X_OK`) to the syscall outcome. -/
def RawDirEntry.style (dtype : Nat) (name : List Nat)
    (faccessat : Int → Except Int Unit) : Except Int Style :=
  if dtype = DT_DIR then .ok .BlueBold
  else if dtype = DT_LNK then
    match faccessat F_OK with
    | .ok _ => .ok .CyanBold
    | .error e => if e = ENOENT then .ok .RedBold else .error e
  else if dtype = DT_REG then
    match faccessat X_OK with
    | .ok _ => .ok .GreenBold
    | .error e => if e = EACCES then .ok (style_for name) else .error e
  else .ok .White

/-! ## Natural comparator `vercmp` (`src/output.rs`) -/

/-- `u8::to_ascii_lowercase`. -/
def toLowerByte (b : Nat) : Nat := if 65 ≤ b ∧ b ≤ 90 then b + 32 else b

/-- `u8::is_ascii_digit`. -/
def isDigitByte (b : Nat) : Bool := decide (48 ≤ b ∧ b ≤ 57)

/-- `SliceExt::digit_at`: `self.get(index).map(u8::is_ascii_digit).unwrap_or(false)`. -/
def digitAt (s : List Nat) (i : Nat) : Bool :=
  ((s.get? i).map isDigitByte).getD false

/-- `u8::cmp`. -/
def byteCmp (a b : Nat) : Ordering :=
  if a < b then .lt else if a = b then .eq else .gt

/-- `Option::<u8>::cmp`: `None` is less than `Some`. -/
def optCmp : Option Nat → Option Nat → Ordering
  | none, none => .eq
  | none, some _ => .lt
  | some _, none => .gt
  | some a, some b => byteCmp a b

/-- The first inner loop of `vercmp`: compare case-folded bytes while either
side is at a non-digit; returns either the deciding `Ordering` (`.inl`, the
`return` in the source) or the positions at which both sides are at a digit or
exhausted (`.inr`).  Fuel `s1.length + s2.length + 1` is always sufficient. -/
def lexLoop (s1 s2 : List Nat) : Nat → Nat → Nat → Sum Ordering (Nat × Nat)
  | 0, p1, p2 => .inr (p1, p2)
  | fuel + 1, p1, p2 =>
    if (p1 < s1.length ∧ digitAt s1 p1 = false) ∨ (p2 < s2.length ∧ digitAt s2 p2 = false) then
      let c1 := (s1.get? p1).map toLowerByte
      let c2 := (s2.get? p2).map toLowerByte
      if c1 = c2 then lexLoop s1 s2 fuel (p1 + 1) (p2 + 1)
      else .inl (optCmp c1 c2)
    else .inr (p1, p2)

/-- `while s.get(pos) == Some(&b'0') { pos += 1 }`.  Fuel `s.length + 1` is
always sufficient. -/
def skipZeros (s : List Nat) : Nat → Nat → Nat
  | 0, p => p
  | fuel + 1, p => if s.get? p = some 48 then skipZeros s fuel (p + 1) else p

/-- The digit-walk loop of `vercmp`: advance while both sides are at digits,
recording the first byte-level digit mismatch.  Fuel
`s1.length + s2.length + 1` is always sufficient. -/
def digitLoop (s1 s2 : List Nat) : Nat → Nat → Nat → Ordering → Ordering × Nat × Nat
  | 0, p1, p2, fd => (fd, p1, p2)
  | fuel + 1, p1, p2, fd =>
    if digitAt s1 p1 ∧ digitAt s2 p2 then
      let fd' := if fd = .eq then optCmp (s1.get? p1) (s2.get? p2) else fd
      digitLoop s1 s2 fuel (p1 + 1) (p2 + 1) fd'
    else (fd, p1, p2)

/-- The outer `while s1_pos < s1.len() || s2_pos < s2.len()` loop of `vercmp`.
Every non-returning iteration strictly advances `p1 + p2`, so fuel
`s1.length + s2.length + 1` is always sufficient. -/
def vercmpLoop (s1 s2 : List Nat) : Nat → Nat → Nat → Ordering
  | 0, _, _ => .eq
  | fuel + 1, p1, p2 =>
    if p1 < s1.length ∨ p2 < s2.length then
      match lexLoop s1 s2 (s1.length + s2.length + 1) p1 p2 with
      | .inl o => o
      | .inr (q1, q2) =>
        let r1 := skipZeros s1 (s1.length + 1) q1
        let r2 := skipZeros s2 (s2.length + 1) q2
        match digitLoop s1 s2 (s1.length + s2.length + 1) r1 r2 .eq with
        | (fd, t1, t2) =>
          if digitAt s1 t1 then .gt
          else if digitAt s2 t2 then .lt
          else if fd ≠ .eq then fd
          else vercmpLoop s1 s2 fuel t1 t2
    else .eq

/-- `vercmp` from `src/output.rs` (translated there from GNU ls). -/
def vercmp (s1 s2 : List Nat) : Ordering :=
  vercmpLoop s1 s2 (s1.length + s2.length + 1) 0 0

/-- Byte string of a Lean string literal (all names used in theorems are
ASCII). -/
def bytes (s : String) : List Nat := s.data.map Char.toNat

/-! ## Raw buffer enumerator (`src/directory.rs`)

A kernel directory-entry record (`libc::dirent64`) is modelled by its
record length, type tag and name; the byte buffer filled by `getdents64`
is modelled as the list of records in the valid region (`bytes_used` bytes)
plus the allocated length, with all bytes past the valid region zero
(the buffer is created with `smallvec![0; 4096]` and grown with zeros). -/

/-- One kernel directory-entry record. -/
structure DirRec where
  reclen : Nat
  dtype : Nat
  name : List Nat
deriving DecidableEq, Repr

/-- `core::mem::size_of::<libc::dirent64>()`: the maximum possible record
size (8 + 8 + 2 + 1 + 256 bytes, padded). -/
def direntSize : Nat := 280

/-- Total record bytes of a list of records. -/
def sumRec (rs : List DirRec) : Nat := (rs.map DirRec.reclen).sum

/-- The kernel's behavior for one `getdents64` call: copy whole records
greedily into a buffer of `cap` free bytes, returning the bytes written, the
records copied and the records still pending. -/
def getdentsFill : List DirRec → Nat → Nat × List DirRec × List DirRec
  | [], _ => (0, [], [])
  | r :: rest, cap =>
    if r.reclen ≤ cap then
      match getdentsFill rest (cap - r.reclen) with
      | (k, taken, left) => (r.reclen + k, r :: taken, left)
    else (0, [], r :: rest)

/-- `syscalls::getdents64`: as `getdentsFill`, but the call fails with
`EINVAL` (22) when the buffer cannot hold even the first pending record. -/
def getdents (stream : List DirRec) (cap : Nat) :
    Except Int (Nat × List DirRec × List DirRec) :=
  match stream with
  | [] => .ok (0, [], [])
  | r :: _ => if r.reclen ≤ cap then .ok (getdentsFill stream cap) else .error 22

/-- The `Directory` value built by `Directory::open`: the records in the
valid region, the allocated buffer length (`dirents.len()`) and `bytes_used`. -/
structure Directory where
  records : List DirRec
  bufLen : Nat
  bytesUsed : Nat
deriving DecidableEq, Repr

/-- The growth step inside the read loop of `Directory::open`: before each
call, if the remaining free capacity is below one maximum record size, the
buffer is extended by a fixed 4096-byte increment. -/
def growIfNeeded (bufLen bytesUsed : Nat) : Nat :=
  if bufLen - bytesUsed < direntSize then bufLen + 4096 else bufLen

/-- The `while bytes_read > 0` loop of `Directory::open`.  `k` is the byte
count returned by the previous `getdents64` call.  One unit of fuel per
iteration; `stream.length + 2` is always sufficient. -/
def openLoop : Nat → List DirRec → Nat → Nat → List DirRec → Nat → Except Int Directory
  | 0, _, _, _, _, _ => .error (-1)
  | fuel + 1, stream, bufLen, bytesUsed, acc, k =>
    if k = 0 then .ok ⟨acc, bufLen, bytesUsed⟩
    else
      let bufLen' := growIfNeeded bufLen bytesUsed
      match getdents stream (bufLen' - bytesUsed) with
      | .error e => .error e
      | .ok (k', taken, rest) =>
        openLoop fuel rest bufLen' (bytesUsed + k') (acc ++ taken) k'

/-- `Directory::open` (named `openDir` since `open` is a Lean keyword): one
initial 4096-byte allocation and read, then the growth/read loop. -/
def Directory.openDir (stream : List DirRec) : Except Int Directory :=
  match getdents stream 4096 with
  | .error e => .error e
  | .ok (k, taken, rest) => openLoop (rest.length + 2) rest 4096 k taken k

/-- The record starting at byte offset `off` of the valid region, if `off` is
a record boundary. -/
def recAt : List DirRec → Nat → Option DirRec
  | [], _ => none
  | r :: rest, off =>
    if off = 0 then some r
    else if off < r.reclen then none
    else recAt rest (off - r.reclen)

/-- The iterator's read of the `d_reclen` field at byte offset `off`
(`(*dirent_ptr).d_reclen`, two bytes at `off + 16`): `none` models an
out-of-bounds access; inside the valid region the field of the record at that
boundary is read, past it the zero padding yields 0. -/
def readReclenField (d : Directory) (off : Nat) : Option Nat :=
  if off + 18 ≤ d.bufLen then
    some (if off < d.bytesUsed then ((recAt d.records off).map DirRec.reclen).getD 0 else 0)
  else none

/-- `<IterDir as Iterator>::next`, iterated to the end: at each step the
record-length field at the current offset is read (also on the terminating
step), an entry is yielded only while `off < bytes_used`, and the offset
advances by the record length read.  `none` models an out-of-bounds read, a
view of a non-boundary offset, or fuel exhaustion; `d.bytesUsed + 1` fuel is
always sufficient. -/
def iterAll (d : Directory) : Nat → Nat → Option (List DirRec)
  | 0, _ => none
  | fuel + 1, off =>
    match readReclenField d off with
    | none => none
    | some rl =>
      if off < d.bytesUsed then
        match recAt d.records off with
        | none => none
        | some r => (iterAll d fuel (off + rl)).map (r :: ·)
      else some []

/-- `Directory::iter().collect()`. -/
def Directory.iter (d : Directory) : Option (List DirRec) :=
  iterAll d (d.bytesUsed + 1) 0

/-! ## Grid layout engine (`src/output.rs`, `write_grid`) -/

/-- `column.iter().max().copied().unwrap_or(1)`. -/
def colMax : List Nat → Nat
  | [] => 1
  | l@(_ :: _) => l.foldl Nat.max 0

/-- `slice::chunks(n)`: consecutive chunks of `n` elements, the last possibly
shorter.  Fuel-based (`l.length` fuel suffices for any `n ≥ 1`; the source
only calls it with `num_rows ≥ 1`). -/
def chunksOf : Nat → Nat → List Nat → List (List Nat)
  | 0, _, _ => []
  | _, _, [] => []
  | fuel + 1, n, l => l.take n :: chunksOf fuel n (l.drop n)

/-- `width_of_this_layout` for a candidate row count `r`: per-column maximum
plus the fixed inter-column gap of 2, the gap subtracted once at the end
(`saturating_sub(2)`). -/
def layoutWidth (lengths : List Nat) (r : Nat) : Nat :=
  ((chunksOf lengths.length r lengths).map (fun column => colMax column + 2)).sum - 2

/-- The `for num_rows in (1..entries.len()).rev()` search in `write_grid`:
process candidates `c, c-1, ..., 1`, accepting a candidate while its layout
fits and stopping at the first candidate that does not.  `rows` is the best
row count accepted so far (invariant at every call: `rows = c + 1`). -/
def gridRowsLoop (lengths : List Nat) (budget : Nat) : Nat → Nat → Nat
  | 0, rows => rows
  | c + 1, rows =>
    if layoutWidth lengths (c + 1) ≤ budget then gridRowsLoop lengths budget c (c + 1)
    else rows

/-- The row count selected by `write_grid` (starting from `rows = n`). -/
def gridRows (lengths : List Nat) (budget : Nat) : Nat :=
  gridRowsLoop lengths budget (lengths.length - 1) lengths.length

/-- An already-classified entry as consumed by `write_grid`: name bytes,
style and optional suffix glyph from `DirEntry::style`, plus the inode and
block count used by the optional `-i`/`-s` columns. -/
structure GEntry where
  name : List Nat
  style : Style
  suffix : Option Nat
  inode : Nat
  blocks : Nat
deriving DecidableEq, Repr

/-- `widths.last_mut().map(|w| *w -= 2)`. -/
def decLastBy2 : List Nat → List Nat
  | [] => []
  | [x] => [x - 2]
  | x :: xs => x :: decLastBy2 xs

/-- `print_total_blocks`: the `total <block-count>` line, printed only when
block-count display is enabled. -/
def print_total_blocks (displayBlocks : Bool) (entries : List GEntry)
    (out : BufferedStdout) : BufferedStdout :=
  if displayBlocks then
    ((out.write (bytes "total ")).write (natToBytes (entries.map GEntry.blocks).sum)).push 10
  else out

/-- One cell of the grid body: the optional inode and block columns, the
styled name with its optional suffix glyph, then padding up to the column
width. -/
def gridCell (printInode displayBlocks : Bool) (inodeLen blocksLen : Nat)
    (width : Nat) (e : GEntry) (len : Nat) (out : BufferedStdout) : BufferedStdout :=
  let out := if printInode then ((out.setStyle .Magenta).alignRight e.inode inodeLen).push 32
             else out
  let out := if displayBlocks then ((out.setStyle .White).alignRight e.blocks blocksLen).push 32
             else out
  let out := (out.setStyle e.style).write e.name
  let out := match e.suffix with
             | some s => (out.setStyle .White).push s
             | none => out
  out.write (List.replicate (width - len) 32)

/-- `write_grid` from `src/output.rs`.  `lenUtf8` abstracts the rendered
width of a name (`len_utf8`, whose grapheme segmentation comes from the
external `unicode_segmentation` crate); everything else follows the source:
the `total` line, the early return on no entries, the per-entry lengths
(name width plus one for a suffix plus the shared inode/blocks column
widths), the descending row-count search, the per-column widths with the
trailing gap removed, and the row-major emission of cells. -/
def write_grid (lenUtf8 : List Nat → Nat) (entries : List GEntry)
    (printInode displayBlocks : Bool) (terminalWidth : Nat)
    (out : BufferedStdout) : BufferedStdout :=
  let out := print_total_blocks displayBlocks entries out
  if entries = [] then out
  else
    let inodeLen := if printInode then
        (natToBytes ((entries.map GEntry.inode).foldl Nat.max 0)).length
      else 0
    let blocksLen := if displayBlocks then
        (natToBytes ((entries.map GEntry.blocks).foldl Nat.max 0)).length
      else 0
    let lengths := entries.map (fun e =>
      lenUtf8 e.name + (if e.suffix.isSome then 1 else 0) + inodeLen + blocksLen)
    let styles := entries.map (fun e => (e.style, e.suffix))
    let rows := gridRows lengths terminalWidth
    let widths := decLastBy2 ((chunksOf lengths.length rows lengths).map
      (fun column => colMax column + 2))
    (List.range rows).foldl (fun out r =>
      ((widths.enum.foldl (fun out cw =>
        match entries.get? (cw.1 * rows + r), lengths.get? (cw.1 * rows + r),
              styles.get? (cw.1 * rows + r) with
        | some e, some len, some _ =>
          gridCell printInode displayBlocks inodeLen blocksLen cw.2 e len out
        | _, _, _ => out) out).setStyle .Reset).push 10) out

/-! ## The per-argument open loop of `run` (`src/main.rs`) -/

/-- The state threaded through the argument loop of `run`: the buffered
stdout writer `app.out`, the bytes written to the error stream (fd 2 — this
loop never writes any), and the collected directory and file arguments. -/
structure RunState where
  out : BufferedStdout
  errOut : List Nat
  dirs : List (List Nat)
  files : List (List Nat)
deriving DecidableEq, Repr

/-- The `for arg in app.args` loop of `run` (`src/main.rs` lines 70–85):
open each argument as a directory; on success collect it in `dirs`, on
`ENOTDIR` (code 20) collect it in `files`, and on any other OS error write
`<arg>: OS error <code> <msg>\n` through `app.out` and continue with the
remaining arguments.  `openF` models `veneer::Directory::open`, `msgF` models
`Error::msg`. -/
def processArgs (openF : List Nat → Except Int Unit) (msgF : Int → List Nat) :
    List (List Nat) → RunState → RunState
  | [], st => st
  | arg :: rest, st =>
    match openF arg with
    | .ok _ => processArgs openF msgF rest { st with dirs := st.dirs ++ [arg] }
    | .error code =>
      if code = ENOTDIR then
        processArgs openF msgF rest { st with files := st.files ++ [arg] }
      else
        let out := (((((st.out.write arg).write (bytes ": OS error ")).write
          (intToBytes code)).push 32).write (msgF code)).push 10
        processArgs openF msgF rest { st with out := out }

/-! ## Lemmas about the buffered writer -/

theorem emitted_push (o : BufferedStdout) (b : Nat) :
    emitted (o.push b) = emitted o ++ [b] := by
  unfold BufferedStdout.push emitted
  split <;> simp

theorem emitted_write (o : BufferedStdout) (bs : List Nat) :
    emitted (o.write bs) = emitted o ++ bs := by
  induction bs generalizing o with
  | nil => simp [BufferedStdout.write]
  | cons b bs ih =>
    have : o.write (b :: bs) = (o.push b).write bs := by
      simp [BufferedStdout.write]
    rw [this, ih, emitted_push, List.append_assoc]
    rfl

theorem push_fields (o : BufferedStdout) (b : Nat) :
    (o.push b).style = o.style ∧ (o.push b).isTerminal = o.isTerminal := by
  unfold BufferedStdout.push
  split <;> simp

theorem write_fields (o : BufferedStdout) (bs : List Nat) :
    (o.write bs).style = o.style ∧ (o.write bs).isTerminal = o.isTerminal := by
  induction bs generalizing o with
  | nil => simp [BufferedStdout.write]
  | cons b bs ih =>
    have : o.write (b :: bs) = (o.push b).write bs := by
      simp [BufferedStdout.write]
    rw [this]
    rcases ih (o.push b) with ⟨h1, h2⟩
    rcases push_fields o b with ⟨h3, h4⟩
    exact ⟨h1.trans h3, h2.trans h4⟩

theorem Style.toBytes_ne_nil (s : Style) : s.toBytes ≠ [] := by
  cases s <;> simp [Style.toBytes]

/-- C7.  The buffered writer's `style` method appends the escape sequence to
the output stream exactly when the destination is a terminal and the
requested style differs from the active one; setting the same style twice
emits it at most once, and on a non-terminal destination the writer state
(hence the output) is unchanged. -/
theorem C7_setStyle_emission (o : BufferedStdout) (s : Style) :
    (emitted (o.setStyle s)
      = emitted o ++ (if o.isTerminal ∧ o.style ≠ s then s.toBytes else [])) ∧
    (emitted (o.setStyle s) ≠ emitted o ↔ (o.isTerminal ∧ o.style ≠ s)) ∧
    emitted ((o.setStyle s).setStyle s) = emitted (o.setStyle s) ∧
    (o.isTerminal = false → o.setStyle s = o) := by
  have hmain : emitted (o.setStyle s)
      = emitted o ++ (if o.isTerminal ∧ o.style ≠ s then s.toBytes else []) := by
    by_cases h : o.isTerminal ∧ o.style ≠ s
    · rw [if_pos h]
      simp only [BufferedStdout.setStyle, if_pos h, emitted]
      simpa [emitted, List.append_assoc] using emitted_write o s.toBytes
    · rw [if_neg h]
      simp [BufferedStdout.setStyle, if_neg h]
  have hfix : ∀ x : BufferedStdout, x.style = s → x.setStyle s = x := by
    intro x hx
    unfold BufferedStdout.setStyle
    rw [if_neg]
    simp [hx]
  refine ⟨hmain, ⟨?_, ?_⟩, ?_, ?_⟩
  · intro hne
    by_contra h
    apply hne
    rw [hmain, if_neg h, List.append_nil]
  · intro h
    rw [hmain, if_pos h]
    intro heq
    have hlen := congrArg List.length heq
    simp [List.length_append] at hlen
    exact Style.toBytes_ne_nil s hlen
  · by_cases h : o.isTerminal ∧ o.style ≠ s
    · have h2 : (o.setStyle s).style = s := by
        simp [BufferedStdout.setStyle, if_pos h]
      rw [hfix _ h2]
    · have h1 : o.setStyle s = o := by
        unfold BufferedStdout.setStyle; rw [if_neg h]
      rw [h1, h1]
  · intro h
    simp [BufferedStdout.setStyle, h]

/-- Witness for C7: at a concrete non-terminal writer the method is the
identity. -/
theorem C7_witness :
    BufferedStdout.file.isTerminal = false ∧
    BufferedStdout.file.setStyle .Red = BufferedStdout.file :=
  ⟨rfl, (C7_setStyle_emission BufferedStdout.file .Red).2.2.2 rfl⟩

/-! ## Lemmas about the style classifier -/

theorem takeWhile_append_all {p : Nat → Bool} (xs : List Nat) (y : Nat) (ys : List Nat)
    (hxs : ∀ x ∈ xs, p x = true) (hy : p y = false) :
    (xs ++ y :: ys).takeWhile p = xs := by
  induction xs with
  | nil => simp [List.takeWhile_cons, hy]
  | cons a l ih =>
    have ha : p a = true := hxs a (by simp)
    simp only [List.cons_append, List.takeWhile_cons, ha, if_true]
    rw [ih (fun x hx => hxs x (by simp [hx]))]

theorem takeWhile_all {p : Nat → Bool} (xs : List Nat)
    (hxs : ∀ x ∈ xs, p x = true) : xs.takeWhile p = xs := by
  induction xs with
  | nil => rfl
  | cons a l ih =>
    have ha : p a = true := hxs a (by simp)
    simp only [List.takeWhile_cons, ha, if_true]
    rw [ih (fun x hx => hxs x (by simp [hx]))]

/-- The suffix after the last dot: appending `"." ++ ext` to any stem makes
`ext` the extension, provided `ext` itself contains no dot. -/
theorem lastSeg_append_dot (stem ext : List Nat) (h : 46 ∉ ext) :
    lastSeg (stem ++ 46 :: ext) = ext := by
  unfold lastSeg
  rw [List.reverse_append, List.reverse_cons, List.append_assoc, List.singleton_append]
  rw [takeWhile_append_all ext.reverse 46 stem.reverse
    (fun x hx => by
      simp only [List.mem_reverse] at hx
      simp only [ne_eq, decide_eq_true_eq]
      exact fun hc => h (hc ▸ hx))
    (by simp)]
  exact List.reverse_reverse ext

theorem lastSeg_no_dot (name : List Nat) (h : 46 ∉ name) : lastSeg name = name := by
  unfold lastSeg
  rw [takeWhile_all name.reverse (fun x hx => by
    simp only [List.mem_reverse] at hx
    simp only [ne_eq, decide_eq_true_eq]
    exact fun hc => h (hc ▸ hx))]
  exact List.reverse_reverse name

/-- C1.  The ordered rule table of `RawDirEntry::style`, keyed on the entry
type tag: directories get the directory style with no probe; symbolic links
get one existence probe deciding valid/broken, other probe errors propagate;
regular files get one executable probe, falling back to the case-sensitive
extension classification exactly on `EACCES`, other probe errors propagate;
every other tag gets the default style with no probe. -/
theorem C1_style_rule_table (name : List Nat) (f : Int → Except Int Unit) :
    (∀ g : Int → Except Int Unit, RawDirEntry.style DT_DIR name g = .ok .BlueBold) ∧
    (f F_OK = .ok () → RawDirEntry.style DT_LNK name f = .ok .CyanBold) ∧
    (f F_OK = .error ENOENT → RawDirEntry.style DT_LNK name f = .ok .RedBold) ∧
    (∀ e : Int, f F_OK = .error e → e ≠ ENOENT →
      RawDirEntry.style DT_LNK name f = .error e) ∧
    (∀ g : Int → Except Int Unit, g F_OK = f F_OK →
      RawDirEntry.style DT_LNK name g = RawDirEntry.style DT_LNK name f) ∧
    (f X_OK = .ok () → RawDirEntry.style DT_REG name f = .ok .GreenBold) ∧
    (f X_OK = .error EACCES → RawDirEntry.style DT_REG name f = .ok (style_for name)) ∧
    (∀ e : Int, f X_OK = .error e → e ≠ EACCES →
      RawDirEntry.style DT_REG name f = .error e) ∧
    (∀ g : Int → Except Int Unit, g X_OK = f X_OK →
      RawDirEntry.style DT_REG name g = RawDirEntry.style DT_REG name f) ∧
    (∀ d : Nat, d ≠ DT_DIR → d ≠ DT_LNK → d ≠ DT_REG →
      ∀ g : Int → Except Int Unit, RawDirEntry.style d name g = .ok .White) ∧
    (∀ stem ext : List Nat, 46 ∉ ext →
      style_for (stem ++ 46 :: ext) =
        (if ext ∈ compressedExts then .Red
         else if ext ∈ documentExts ∨ ext ∈ mediaExts then .Magenta
         else .White)) := by
  refine ⟨?_, ?_, ?_, ?_, ?_, ?_, ?_, ?_, ?_, ?_, ?_⟩
  · intro g; simp [RawDirEntry.style]
  · intro h; simp [RawDirEntry.style, DT_LNK, DT_DIR, h]
  · intro h; simp [RawDirEntry.style, DT_LNK, DT_DIR, h, ENOENT]
  · intro e h hne; simp [RawDirEntry.style, DT_LNK, DT_DIR, h, hne]
  · intro g hg; simp [RawDirEntry.style, DT_LNK, DT_DIR, hg]
  · intro h; simp [RawDirEntry.style, DT_REG, DT_DIR, DT_LNK, h]
  · intro h; simp [RawDirEntry.style, DT_REG, DT_DIR, DT_LNK, h, EACCES]
  · intro e h hne; simp [RawDirEntry.style, DT_REG, DT_DIR, DT_LNK, h, hne]
  · intro g hg; simp [RawDirEntry.style, DT_REG, DT_DIR, DT_LNK, hg]
  · intro d h1 h2 h3 g; simp [RawDirEntry.style, h1, h2, h3]
  · intro stem ext h
    simp [style_for, lastSeg_append_dot stem ext h]

/-- Witness for C1 at concrete inputs: a directory, a broken symlink and a
permission-denied `.tar` file. -/
theorem C1_witness :
    RawDirEntry.style DT_DIR (bytes "d") (fun _ => .ok ()) = .ok .BlueBold ∧
    RawDirEntry.style DT_LNK (bytes "l") (fun _ => .error ENOENT) = .ok .RedBold ∧
    RawDirEntry.style DT_REG (bytes "a.tar") (fun _ => .error EACCES)
      = .ok (style_for (bytes "a.tar")) := by
  refine ⟨(C1_style_rule_table (bytes "d") (fun _ => .ok ())).1 _,
    (C1_style_rule_table (bytes "l") (fun _ => .error ENOENT)).2.2.1 rfl,
    (C1_style_rule_table (bytes "a.tar") (fun _ => .error EACCES)).2.2.2.2.2.2.1 rfl⟩

/-- C10.  In `style_for`, a name without a `'.'` byte is matched whole
against the extension sets: dotless `tar`/`gz`/`tgz`/`xz` classify as
archive, dotless `pdf`/`eps`/`png`/`mp4` as document/media; and the default
style is produced exactly when the text after the last dot is outside all
three sets. -/
theorem C10_dotless_extension (name : List Nat) :
    (46 ∉ name → lastSeg name = name) ∧
    (46 ∉ name → name ∈ compressedExts → style_for name = .Red) ∧
    (46 ∉ name → name ∈ documentExts ∨ name ∈ mediaExts → style_for name = .Magenta) ∧
    (style_for name = .White ↔
      lastSeg name ∉ compressedExts ∧ lastSeg name ∉ documentExts ∧
        lastSeg name ∉ mediaExts) := by
  refine ⟨lastSeg_no_dot name, ?_, ?_, ?_⟩
  · intro h hm
    simp [style_for, lastSeg_no_dot name h, hm]
  · intro h hm
    have hnc : name ∉ compressedExts := by
      rcases hm with hm | hm <;>
        simp only [documentExts, mediaExts, List.mem_cons, List.mem_singleton,
          List.not_mem_nil, or_false] at hm <;>
        rcases hm with hm | hm <;> subst hm <;> decide
    simp [style_for, lastSeg_no_dot name h, hnc, hm]
  · by_cases h1 : lastSeg name ∈ compressedExts
    · simp [style_for, h1]
    · by_cases h2 : lastSeg name ∈ documentExts ∨ lastSeg name ∈ mediaExts
      · rcases h2 with h2 | h2 <;> simp [style_for, h1, h2]
      · push_neg at h2
        simp [style_for, h1, h2.1, h2.2]

/-- Witness for C10: concrete dotless names. -/
theorem C10_witness :
    style_for (bytes "tar") = .Red ∧ style_for (bytes "png") = .Magenta ∧
    (style_for (bytes "a.txt") = .White ↔
      lastSeg (bytes "a.txt") ∉ compressedExts ∧
        lastSeg (bytes "a.txt") ∉ documentExts ∧
        lastSeg (bytes "a.txt") ∉ mediaExts) :=
  ⟨(C10_dotless_extension (bytes "tar")).2.1 (by decide) (by decide),
   (C10_dotless_extension (bytes "png")).2.2.1 (by decide) (by decide),
   (C10_dotless_extension (bytes "a.txt")).2.2.2⟩

/-- C2.  The literal results of the natural comparator: `file2 < file10`
(numeric magnitude), `file010 = file10` (leading zeros stripped), `a < B`
(case-insensitive) and `file < file2` (the exhausted side is less), plus the
version-sort ordering `img2 < img10 < img10a`. -/
theorem C2_vercmp_literal_cases :
    vercmp (bytes "file2") (bytes "file10") = .lt ∧
    vercmp (bytes "file010") (bytes "file10") = .eq ∧
    vercmp (bytes "a") (bytes "B") = .lt ∧
    vercmp (bytes "file") (bytes "file2") = .lt ∧
    vercmp (bytes "img2") (bytes "img10") = .lt ∧
    vercmp (bytes "img10") (bytes "img10a") = .lt := by
  decide

/-! ## The per-argument diagnostic of `run` (C9) -/

theorem processArgs_errOut (openF : List Nat → Except Int Unit) (msgF : Int → List Nat)
    (args : List (List Nat)) (st : RunState) :
    (processArgs openF msgF args st).errOut = st.errOut := by
  induction args generalizing st with
  | nil => rfl
  | cons arg rest ih =>
    unfold processArgs
    cases h : openF arg with
    | ok _ => simp [ih]
    | error code =>
      by_cases hc : code = ENOTDIR
      · simp [hc, ih]
      · simp [hc, ih]

/-- C9 (amended).  When opening an argument fails with an OS error other
than `ENOTDIR`, the loop in `run` appends the diagnostic line
`<argument>: OS error <code> <message>` to the buffered standard-output
writer (`app.out`) — not to the error stream, and prefixed by the failing
argument rather than the program name — and continues with the remaining
arguments; the loop never writes to the error stream at all. -/
theorem C9_diagnostic_and_continue (openF : List Nat → Except Int Unit)
    (msgF : Int → List Nat) (arg : List Nat) (rest : List (List Nat))
    (st : RunState) (code : Int)
    (h : openF arg = .error code) (hc : code ≠ ENOTDIR) :
    (processArgs openF msgF (arg :: rest) st
      = processArgs openF msgF rest
          { st with out := (((((st.out.write arg).write (bytes ": OS error ")).write
              (intToBytes code)).push 32).write (msgF code)).push 10 }) ∧
    (emitted ((((((st.out.write arg).write (bytes ": OS error ")).write
        (intToBytes code)).push 32).write (msgF code)).push 10)
      = emitted st.out ++ (arg ++ bytes ": OS error " ++ intToBytes code
          ++ [32] ++ msgF code ++ [10])) ∧
    (∀ args st2, (processArgs openF msgF args st2).errOut = st2.errOut) := by
  refine ⟨?_, ?_, fun args st2 => processArgs_errOut openF msgF args st2⟩
  · conv_lhs => rw [processArgs]
    rw [h]
    simp [hc]
  · rw [emitted_push, emitted_write, emitted_push, emitted_write, emitted_write,
      emitted_write]
    simp [List.append_assoc]

/-- Witness for C9's amended theorem at a concrete failing argument. -/
theorem C9_witness :
    processArgs (fun _ => .error 13) (fun _ => bytes "Permission denied")
        [bytes "badpath"] ⟨BufferedStdout.file, [], [], []⟩
      = processArgs (fun _ => .error 13) (fun _ => bytes "Permission denied") []
          { (⟨BufferedStdout.file, [], [], []⟩ : RunState) with
            out := (((((BufferedStdout.file.write (bytes "badpath")).write
              (bytes ": OS error ")).write (intToBytes 13)).push 32).write
              (bytes "Permission denied")).push 10 } :=
  (C9_diagnostic_and_continue (fun _ => .error 13) (fun _ => bytes "Permission denied")
    (bytes "badpath") [] ⟨BufferedStdout.file, [], [], []⟩ 13 rfl (by decide)).1

/-- Counterexample for C9 as stated: at a concrete failing argument the
diagnostic goes to the standard-output writer while the error stream stays
empty, and the line is prefixed by the argument, not by the program name. -/
theorem C9_counterexample :
    (processArgs (fun _ => .error 13) (fun _ => bytes "Permission denied")
        [bytes "badpath"] ⟨BufferedStdout.file, [], [], []⟩).errOut = [] ∧
    emitted (processArgs (fun _ => .error 13) (fun _ => bytes "Permission denied")
        [bytes "badpath"] ⟨BufferedStdout.file, [], [], []⟩).out
      = bytes "badpath: OS error 13 Permission denied" ++ [10] ∧
    bytes "badpath: OS error 13 Permission denied"
      ≠ bytes "fls: OS error 13 Permission denied" := by
  decide

/-! ## Lemmas about the grid layout engine -/

theorem gridRowsLoop_zero (L : List Nat) (b rows : Nat) :
    gridRowsLoop L b 0 rows = rows := rfl

theorem gridRowsLoop_succ (L : List Nat) (b c rows : Nat) :
    gridRowsLoop L b (c + 1) rows
      = if layoutWidth L (c + 1) ≤ b then gridRowsLoop L b c (c + 1) else rows := rfl

theorem gridRowsLoop_pos (L : List Nat) (b : Nat) :
    ∀ c, 1 ≤ gridRowsLoop L b c (c + 1) := by
  intro c
  induction c with
  | zero => simp [gridRowsLoop]
  | succ c ih =>
    unfold gridRowsLoop
    split
    · exact ih
    · omega

theorem gridRowsLoop_le (L : List Nat) (b : Nat) :
    ∀ c, gridRowsLoop L b c (c + 1) ≤ c + 1 := by
  intro c
  induction c with
  | zero => simp [gridRowsLoop]
  | succ c ih =>
    unfold gridRowsLoop
    split
    · omega
    · omega

theorem gridRowsLoop_fits (L : List Nat) (b : Nat) :
    ∀ c r, gridRowsLoop L b c (c + 1) ≤ r → r ≤ c → layoutWidth L r ≤ b := by
  intro c
  induction c with
  | zero =>
    intro r h1 h2
    simp [gridRowsLoop] at h1
    omega
  | succ c ih =>
    intro r h1 h2
    rw [gridRowsLoop_succ] at h1
    by_cases hf : layoutWidth L (c + 1) ≤ b
    · rw [if_pos hf] at h1
      rcases Nat.lt_or_ge r (c + 1) with hr | hr
      · exact ih r h1 (by omega)
      · have : r = c + 1 := by omega
        rw [this]; exact hf
    · rw [if_neg hf] at h1
      omega

theorem gridRowsLoop_break (L : List Nat) (b : Nat) :
    ∀ c, 1 < gridRowsLoop L b c (c + 1) →
      b < layoutWidth L (gridRowsLoop L b c (c + 1) - 1) := by
  intro c
  induction c with
  | zero => simp [gridRowsLoop]
  | succ c ih =>
    intro h1
    rw [gridRowsLoop_succ] at h1 ⊢
    by_cases hf : layoutWidth L (c + 1) ≤ b
    · rw [if_pos hf] at h1 ⊢
      exact ih h1
    · rw [if_neg hf]
      simpa using Nat.lt_of_not_le hf

/-- C4 (amended).  The descending row-count search of `write_grid` returns
the row count `R` characterized by: `1 ≤ R ≤ n`, every candidate from `R` up
to `n - 1` fits the budget, and when `R > 1` the candidate `R - 1` does not
fit (the search stops at the first non-fitting candidate).  A row count
smaller than `R` may still fit, so `R` is not in general the smallest
fitting row count. -/
theorem C4_row_selection (lengths : List Nat) (budget : Nat) (h : lengths ≠ []) :
    1 ≤ gridRows lengths budget ∧ gridRows lengths budget ≤ lengths.length ∧
    (∀ r, gridRows lengths budget ≤ r → r < lengths.length →
      layoutWidth lengths r ≤ budget) ∧
    (1 < gridRows lengths budget →
      budget < layoutWidth lengths (gridRows lengths budget - 1)) := by
  obtain ⟨c, hc⟩ : ∃ c, lengths.length = c + 1 :=
    ⟨lengths.length - 1, by have := List.length_pos.mpr h; omega⟩
  unfold gridRows
  rw [hc]
  simp only [Nat.add_sub_cancel]
  exact ⟨gridRowsLoop_pos lengths budget c,
    gridRowsLoop_le lengths budget c,
    fun r h1 h2 => gridRowsLoop_fits lengths budget c r h1 (by omega),
    gridRowsLoop_break lengths budget c⟩

/-- Witness for C4's amended theorem at a concrete one-entry listing. -/
theorem C4_witness :
    (([3] : List Nat) ≠ []) ∧
    (1 ≤ gridRows [3] 10 ∧ gridRows [3] 10 ≤ [3].length ∧
      (∀ r, gridRows [3] 10 ≤ r → r < [3].length → layoutWidth [3] r ≤ 10) ∧
      (1 < gridRows [3] 10 → 10 < layoutWidth [3] (gridRows [3] 10 - 1))) :=
  ⟨by decide, C4_row_selection [3] 10 (by decide)⟩

/-- Counterexample for C4 as stated: with entry widths `[1,1,1,1,5,5]` and
budget 8 the engine selects 6 rows, although 3 rows (`layoutWidth = 8`) also
fit — the descending search broke at the non-fitting candidate 5. -/
theorem C4_counterexample :
    gridRows [1, 1, 1, 1, 5, 5] 8 = 6 ∧
    layoutWidth [1, 1, 1, 1, 5, 5] 3 ≤ 8 ∧ (3 : Nat) < 6 := by
  decide

theorem le_foldl_max (l : List Nat) : ∀ a : Nat, a ≤ l.foldl Nat.max a := by
  induction l with
  | nil => intro a; exact Nat.le_refl a
  | cons h t ih =>
    intro a
    exact Nat.le_trans (Nat.le_max_left a h) (ih (Nat.max a h))

theorem mem_le_foldl_max (l : List Nat) : ∀ a x : Nat, x ∈ l → x ≤ l.foldl Nat.max a := by
  induction l with
  | nil => intro a x hx; simp at hx
  | cons h t ih =>
    intro a x hx
    rcases List.mem_cons.mp hx with rfl | hx
    · exact Nat.le_trans (Nat.le_max_right a x) (le_foldl_max t (Nat.max a x))
    · exact ih (Nat.max a h) x hx

theorem mem_le_colMax (col : List Nat) (x : Nat) (hx : x ∈ col) : x ≤ colMax col := by
  cases col with
  | nil => simp at hx
  | cons h t => exact mem_le_foldl_max (h :: t) 0 x hx

/-- When the candidate row count leaves at least two columns, the layout is
at least as wide as the first column plus its gap. -/
theorem layoutWidth_lower (l : List Nat) (r : Nat) (h1 : 1 ≤ r) (h2 : r < l.length) :
    colMax (l.take r) + 2 ≤ layoutWidth l r := by
  obtain ⟨f, hlen⟩ : ∃ f, l.length = f + 2 := ⟨l.length - 2, by omega⟩
  obtain ⟨x, xs, rfl⟩ : ∃ x xs, l = x :: xs := by
    cases l with
    | nil => simp at h2
    | cons x xs => exact ⟨x, xs, rfl⟩
  have hdne : (x :: xs).drop r ≠ [] := by
    apply List.ne_nil_of_length_pos
    rw [List.length_drop]
    omega
  obtain ⟨y, ys, hyys⟩ := List.exists_cons_of_ne_nil hdne
  unfold layoutWidth
  rw [hlen]
  rw [show chunksOf (f + 2) r (x :: xs)
      = (x :: xs).take r :: chunksOf (f + 1) r ((x :: xs).drop r) from rfl]
  rw [hyys]
  rw [show chunksOf (f + 1) r (y :: ys)
      = (y :: ys).take r :: chunksOf f r ((y :: ys).drop r) from rfl]
  simp only [List.map_cons, List.sum_cons]
  omega

/-- C5 (amended).  Degenerate grid cases: with zero entries the engine emits
nothing at all when block-count display is off, and exactly the `total 0`
line when it is on; the selected row count is never 0; and when the budget
is smaller than every entry's rendered width the search falls back to one
entry per row (row count = entry count). -/
theorem C5_degenerate_cases :
    (∀ (lenUtf8 : List Nat → Nat) (printInode : Bool) (budget : Nat)
        (out : BufferedStdout),
      write_grid lenUtf8 [] printInode false budget out = out) ∧
    (∀ (lenUtf8 : List Nat → Nat) (printInode : Bool) (budget : Nat)
        (out : BufferedStdout),
      emitted (write_grid lenUtf8 [] printInode true budget out)
        = emitted out ++ (bytes "total 0" ++ [10])) ∧
    (∀ (lengths : List Nat) (budget : Nat), lengths ≠ [] →
      1 ≤ gridRows lengths budget) ∧
    (∀ (lengths : List Nat) (budget : Nat), lengths ≠ [] →
      (∀ w ∈ lengths, budget < w) → gridRows lengths budget = lengths.length) := by
  refine ⟨?_, ?_, ?_, ?_⟩
  · intro lenUtf8 printInode budget out
    simp [write_grid, print_total_blocks]
  · intro lenUtf8 printInode budget out
    have h1 : write_grid lenUtf8 [] printInode true budget out
        = ((out.write (bytes "total ")).write (natToBytes 0)).push 10 := by
      simp [write_grid, print_total_blocks]
    rw [h1, emitted_push, emitted_write, emitted_write]
    have h3 : bytes "total " ++ (natToBytes 0 ++ [10]) = bytes "total 0" ++ [10] := by
      decide
    simp only [List.append_assoc]
    rw [h3]
  · intro lengths budget h
    obtain ⟨c, hc⟩ : ∃ c, lengths.length = c + 1 :=
      ⟨lengths.length - 1, by have := List.length_pos.mpr h; omega⟩
    unfold gridRows
    rw [hc]
    simp only [Nat.add_sub_cancel]
    exact gridRowsLoop_pos lengths budget c
  · intro lengths budget h hall
    obtain ⟨x, xs, rfl⟩ : ∃ x xs, lengths = x :: xs := by
      cases lengths with
      | nil => exact absurd rfl h
      | cons x xs => exact ⟨x, xs, rfl⟩
    cases xs with
    | nil => rfl
    | cons y ys =>
      set l := x :: y :: ys with hl
      have hn2 : 2 ≤ l.length := by simp [hl]
      obtain ⟨c, hc⟩ : ∃ c, l.length = c + 2 := ⟨l.length - 2, by omega⟩
      have hx : x ∈ l.take (c + 1) := by
        rw [hl]
        exact List.mem_cons_self x _
      have hwide : budget < layoutWidth l (c + 1) := by
        have hle := layoutWidth_lower l (c + 1) (by omega) (by omega)
        have hcm := mem_le_colMax (l.take (c + 1)) x hx
        have hxb : budget < x := hall x (by rw [hl]; exact List.mem_cons_self x _)
        omega
      unfold gridRows
      rw [hc]
      have h21 : c + 2 - 1 = c + 1 := by omega
      rw [h21, gridRowsLoop_succ, if_neg (by omega)]

/-- Witness for C5's amended theorem: a two-entry listing whose budget is
below both widths selects one entry per row. -/
theorem C5_witness :
    (([5, 6] : List Nat) ≠ []) ∧ (∀ w ∈ ([5, 6] : List Nat), 4 < w) ∧
    gridRows [5, 6] 4 = [5, 6].length :=
  ⟨by decide, by decide,
    C5_degenerate_cases.2.2.2 [5, 6] 4 (by decide) (by decide)⟩

/-- Counterexample for C5 as stated: with zero entries and block-count
display enabled the engine still produces output (the `total 0` line). -/
theorem C5_counterexample :
    emitted (write_grid List.length [] false true 80 BufferedStdout.file)
      = bytes "total 0" ++ [10] ∧
    bytes "total 0" ++ [10] ≠ ([] : List Nat) := by
  decide

/-! ## Lemmas about the natural comparator -/

theorem byteCmp_self (a : Nat) : byteCmp a a = .eq := by
  simp [byteCmp]

theorem byteCmp_swap (a b : Nat) : byteCmp b a = (byteCmp a b).swap := by
  unfold byteCmp
  rcases Nat.lt_trichotomy a b with h | h | h
  · rw [if_neg (by omega : ¬ b < a), if_neg (by omega : ¬ b = a), if_pos h]; rfl
  · subst h; simp [Ordering.swap]
  · rw [if_pos h, if_neg (by omega : ¬ a < b), if_neg (by omega : ¬ a = b)]; rfl

theorem optCmp_self (x : Option Nat) : optCmp x x = .eq := by
  cases x with
  | none => rfl
  | some a => exact byteCmp_self a

theorem optCmp_swap (x y : Option Nat) : optCmp y x = (optCmp x y).swap := by
  cases x <;> cases y <;> first | rfl | exact byteCmp_swap _ _

theorem swap_ne_eq (o : Ordering) : (o.swap ≠ .eq) ↔ (o ≠ .eq) := by
  cases o <;> simp [Ordering.swap]

theorem digitAt_true_lt (s : List Nat) (p : Nat) (h : digitAt s p = true) :
    p < s.length := by
  by_contra hc
  push_neg at hc
  rw [digitAt, List.get?_eq_none.mpr hc] at h
  simp at h

theorem lexLoop_succ (s1 s2 : List Nat) (f p1 p2 : Nat) :
    lexLoop s1 s2 (f + 1) p1 p2
      = if (p1 < s1.length ∧ digitAt s1 p1 = false)
            ∨ (p2 < s2.length ∧ digitAt s2 p2 = false) then
          if (s1.get? p1).map toLowerByte = (s2.get? p2).map toLowerByte then
            lexLoop s1 s2 f (p1 + 1) (p2 + 1)
          else .inl (optCmp ((s1.get? p1).map toLowerByte) ((s2.get? p2).map toLowerByte))
        else .inr (p1, p2) := rfl

theorem digitLoop_succ (s1 s2 : List Nat) (f p1 p2 : Nat) (fd : Ordering) :
    digitLoop s1 s2 (f + 1) p1 p2 fd
      = if digitAt s1 p1 ∧ digitAt s2 p2 then
          digitLoop s1 s2 f (p1 + 1) (p2 + 1)
            (if fd = .eq then optCmp (s1.get? p1) (s2.get? p2) else fd)
        else (fd, p1, p2) := rfl

theorem vercmpLoop_succ (s1 s2 : List Nat) (f p1 p2 : Nat) :
    vercmpLoop s1 s2 (f + 1) p1 p2
      = if p1 < s1.length ∨ p2 < s2.length then
          match lexLoop s1 s2 (s1.length + s2.length + 1) p1 p2 with
          | .inl o => o
          | .inr (q1, q2) =>
            match digitLoop s1 s2 (s1.length + s2.length + 1)
                (skipZeros s1 (s1.length + 1) q1) (skipZeros s2 (s2.length + 1) q2) .eq with
            | (fd, t1, t2) =>
              if digitAt s1 t1 then .gt
              else if digitAt s2 t2 then .lt
              else if fd ≠ .eq then fd
              else vercmpLoop s1 s2 f t1 t2
        else .eq := rfl

theorem lexLoop_diag (a : List Nat) :
    ∀ f p, ∃ q, lexLoop a a f p p = .inr (q, q) := by
  intro f
  induction f with
  | zero => intro p; exact ⟨p, rfl⟩
  | succ f ih =>
    intro p
    rw [lexLoop_succ]
    split
    · rw [if_pos rfl]
      exact ih (p + 1)
    · exact ⟨p, rfl⟩

theorem digitLoop_diag (a : List Nat) :
    ∀ f p fd, ∃ t, digitLoop a a f p p fd = (fd, t, t) := by
  intro f
  induction f with
  | zero => intro p fd; exact ⟨p, rfl⟩
  | succ f ih =>
    intro p fd
    rw [digitLoop_succ]
    split
    · have hfd : (if fd = .eq then optCmp (a.get? p) (a.get? p) else fd) = fd := by
        by_cases h : fd = .eq
        · rw [if_pos h, optCmp_self, h]
        · rw [if_neg h]
      rw [hfd]
      exact ih (p + 1) fd
    · exact ⟨p, rfl⟩

theorem digitLoop_not_both (s1 s2 : List Nat) :
    ∀ f p1 p2 fd, s1.length - p1 < f →
      ¬(digitAt s1 (digitLoop s1 s2 f p1 p2 fd).2.1 = true ∧
        digitAt s2 (digitLoop s1 s2 f p1 p2 fd).2.2 = true) := by
  intro f
  induction f with
  | zero => intro p1 p2 fd h; omega
  | succ f ih =>
    intro p1 p2 fd h
    rw [digitLoop_succ]
    split
    · next hd =>
      have hlt := digitAt_true_lt s1 p1 hd.1
      exact ih (p1 + 1) (p2 + 1) _ (by omega)
    · next hd =>
      simpa using hd

theorem lexLoop_flip (s1 s2 : List Nat) :
    ∀ f p1 p2, lexLoop s2 s1 f p2 p1
      = (match lexLoop s1 s2 f p1 p2 with
         | .inl o => .inl o.swap
         | .inr (q1, q2) => .inr (q2, q1)) := by
  intro f
  induction f with
  | zero => intro p1 p2; rfl
  | succ f ih =>
    intro p1 p2
    rw [lexLoop_succ, lexLoop_succ]
    by_cases hc : (p1 < s1.length ∧ digitAt s1 p1 = false)
        ∨ (p2 < s2.length ∧ digitAt s2 p2 = false)
    · rw [if_pos (Or.symm hc), if_pos hc]
      by_cases he : (s1.get? p1).map toLowerByte = (s2.get? p2).map toLowerByte
      · rw [if_pos he.symm, if_pos he]
        exact ih (p1 + 1) (p2 + 1)
      · rw [if_neg (fun h => he h.symm), if_neg he]
        rw [optCmp_swap]
    · rw [if_neg (fun h => hc (Or.symm h)), if_neg hc]

theorem digitLoop_flip (s1 s2 : List Nat) :
    ∀ f p1 p2 fd, digitLoop s2 s1 f p2 p1 fd.swap
      = (match digitLoop s1 s2 f p1 p2 fd with
         | (o, t1, t2) => (o.swap, t2, t1)) := by
  intro f
  induction f with
  | zero => intro p1 p2 fd; rfl
  | succ f ih =>
    intro p1 p2 fd
    rw [digitLoop_succ, digitLoop_succ]
    by_cases hd : digitAt s1 p1 = true ∧ digitAt s2 p2 = true
    · rw [if_pos ⟨hd.2, hd.1⟩, if_pos hd]
      have harg : (if fd.swap = .eq then optCmp (s2.get? p2) (s1.get? p1) else fd.swap)
          = (if fd = .eq then optCmp (s1.get? p1) (s2.get? p2) else fd).swap := by
        by_cases h : fd = .eq
        · subst h
          rw [show Ordering.eq.swap = Ordering.eq from rfl, if_pos rfl, if_pos rfl]
          exact optCmp_swap _ _
        · have h2 : fd.swap ≠ .eq := by cases fd <;> simp_all [Ordering.swap]
          rw [if_neg h2, if_neg h]
      rw [harg]
      exact ih (p1 + 1) (p2 + 1) _
    · rw [if_neg (fun h => hd ⟨h.2, h.1⟩), if_neg hd]

theorem vercmpLoop_diag (a : List Nat) : ∀ f p, vercmpLoop a a f p p = .eq := by
  intro f
  induction f with
  | zero => intro p; rfl
  | succ f ih =>
    intro p
    rw [vercmpLoop_succ]
    by_cases hp : p < a.length ∨ p < a.length
    · rw [if_pos hp]
      obtain ⟨q, hq⟩ := lexLoop_diag a (a.length + a.length + 1) p
      rw [hq]
      simp only []
      obtain ⟨t, ht⟩ :=
        digitLoop_diag a (a.length + a.length + 1) (skipZeros a (a.length + 1) q) .eq
      rw [ht]
      simp only []
      have hnb := digitLoop_not_both a a (a.length + a.length + 1)
        (skipZeros a (a.length + 1) q) (skipZeros a (a.length + 1) q) .eq (by omega)
      rw [ht] at hnb
      simp only [] at hnb
      have hnd : digitAt a t = false := by
        by_cases h : digitAt a t = true
        · exact absurd ⟨h, h⟩ hnb
        · simpa using h
      rw [if_neg (by simp [hnd]), if_neg (by simp [hnd]), if_neg (by simp)]
      exact ih t
    · rw [if_neg hp]

theorem vercmpLoop_flip (s1 s2 : List Nat) :
    ∀ f p1 p2, vercmpLoop s2 s1 f p2 p1 = (vercmpLoop s1 s2 f p1 p2).swap := by
  intro f
  induction f with
  | zero => intro p1 p2; rfl
  | succ f ih =>
    intro p1 p2
    rw [vercmpLoop_succ, vercmpLoop_succ]
    by_cases hp : p1 < s1.length ∨ p2 < s2.length
    · rw [if_pos (Or.symm hp), if_pos hp]
      rw [show s2.length + s1.length = s1.length + s2.length from Nat.add_comm _ _]
      rw [lexLoop_flip s1 s2 (s1.length + s2.length + 1) p1 p2]
      cases hlex : lexLoop s1 s2 (s1.length + s2.length + 1) p1 p2 with
      | inl o => rfl
      | inr qq =>
        obtain ⟨q1, q2⟩ := qq
        simp only []
        have hdflip := digitLoop_flip s1 s2 (s1.length + s2.length + 1)
          (skipZeros s1 (s1.length + 1) q1) (skipZeros s2 (s2.length + 1) q2) .eq
        rw [show Ordering.swap .eq = .eq from rfl] at hdflip
        obtain ⟨fd, t1, t2, hdl⟩ :
            ∃ fd t1 t2, digitLoop s1 s2 (s1.length + s2.length + 1)
              (skipZeros s1 (s1.length + 1) q1) (skipZeros s2 (s2.length + 1) q2) .eq
              = (fd, t1, t2) := ⟨_, _, _, rfl⟩
        have hnb := digitLoop_not_both s1 s2 (s1.length + s2.length + 1)
          (skipZeros s1 (s1.length + 1) q1) (skipZeros s2 (s2.length + 1) q2) .eq
          (by omega)
        rw [hdl] at hdflip hnb
        simp only [] at hdflip hnb
        rw [hdl, hdflip]
        simp only []
        by_cases h1 : digitAt s1 t1 = true
        · have h2 : digitAt s2 t2 = false := by
            by_cases hx : digitAt s2 t2 = true
            · exact absurd ⟨h1, hx⟩ hnb
            · simpa using hx
          simp [h1, h2, Ordering.swap]
        · have h1f : digitAt s1 t1 = false := by simpa using h1
          by_cases h2 : digitAt s2 t2 = true
          · simp [h1f, h2, Ordering.swap]
          · have h2f : digitAt s2 t2 = false := by simpa using h2
            by_cases hfd : fd = .eq
            · subst hfd
              simpa [h1f, h2f, Ordering.swap] using ih t1 t2
            · have hsw : fd.swap ≠ .eq := (swap_ne_eq fd).mpr hfd
              simp [h1f, h2f, hfd, hsw]
    · rw [if_neg (fun h => hp (Or.symm h)), if_neg hp]
      rfl

/-- C6 (amended).  The natural comparator is reflexive
(`compare(a,a) = equal`) and antisymmetric (`compare(a,b)` is the opposite of
`compare(b,a)`) for all byte strings, but it is not transitive — hence not a
total order: `compare("", "!") = less` and `compare("!", "0") = less`, yet
`compare("", "0") = equal` (a trailing all-zero numeral run compares equal to
end-of-string, but compares bytewise against non-digit characters). -/
theorem C6_reflexive_antisymmetric_not_transitive :
    (∀ a : List Nat, vercmp a a = .eq) ∧
    (∀ a b : List Nat, vercmp b a = (vercmp a b).swap) ∧
    (vercmp [] [33] = .lt ∧ vercmp [33] [48] = .lt ∧ vercmp [] [48] = .eq) := by
  refine ⟨?_, ?_, by decide, by decide, by decide⟩
  · intro a
    exact vercmpLoop_diag a (a.length + a.length + 1) 0
  · intro a b
    unfold vercmp
    rw [vercmpLoop_flip a b (b.length + a.length + 1) 0 0]
    rw [show b.length + a.length = a.length + b.length from Nat.add_comm _ _]

/-- Counterexample for C6 as stated: the relation induced by `vercmp` is not
transitive, witnessed at the byte strings `""`, `"!"` and `"0"`. -/
theorem C6_counterexample :
    vercmp [] [33] = .lt ∧ vercmp [33] [48] = .lt ∧ vercmp [] [48] = .eq ∧
    ¬(∀ a b c : List Nat, vercmp a b = .lt → vercmp b c = .lt → vercmp a c = .lt) := by
  refine ⟨by decide, by decide, by decide, fun h => ?_⟩
  exact absurd (h [] [33] [48] (by decide) (by decide)) (by decide)

/-! ## Lemmas about the raw buffer enumerator -/

theorem sumRec_nil : sumRec [] = 0 := rfl

theorem sumRec_cons (r : DirRec) (l : List DirRec) :
    sumRec (r :: l) = r.reclen + sumRec l := by
  simp [sumRec]

theorem sumRec_append (a b : List DirRec) :
    sumRec (a ++ b) = sumRec a + sumRec b := by
  simp [sumRec]

theorem sumRec_pos (l : List DirRec) (hne : l ≠ [])
    (hv : ∀ x ∈ l, 0 < x.reclen) : 0 < sumRec l := by
  cases l with
  | nil => exact absurd rfl hne
  | cons r t =>
    have := hv r (by simp)
    rw [sumRec_cons]
    omega

theorem sumRec_ge_length (l : List DirRec) (hv : ∀ x ∈ l, 0 < x.reclen) :
    l.length ≤ sumRec l := by
  induction l with
  | nil => simp [sumRec]
  | cons r t ih =>
    have hr := hv r (by simp)
    have ht := ih (fun x hx => hv x (by simp [hx]))
    rw [sumRec_cons, List.length_cons]
    omega

theorem getdentsFill_spec : ∀ (stream : List DirRec) (cap : Nat),
    (getdentsFill stream cap).2.1 ++ (getdentsFill stream cap).2.2 = stream ∧
    (getdentsFill stream cap).1 = sumRec (getdentsFill stream cap).2.1 ∧
    (getdentsFill stream cap).1 ≤ cap ∧
    (∀ r rest, stream = r :: rest → r.reclen ≤ cap →
      (getdentsFill stream cap).2.1 ≠ []) := by
  intro stream
  induction stream with
  | nil =>
    intro cap
    exact ⟨rfl, rfl, Nat.zero_le cap, fun r rest h => by simp at h⟩
  | cons r rest ih =>
    intro cap
    by_cases hle : r.reclen ≤ cap
    · have hcons : getdentsFill (r :: rest) cap
          = (r.reclen + (getdentsFill rest (cap - r.reclen)).1,
             r :: (getdentsFill rest (cap - r.reclen)).2.1,
             (getdentsFill rest (cap - r.reclen)).2.2) := by
        simp only [getdentsFill, if_pos hle]
      obtain ⟨h1, h2, h3, _⟩ := ih (cap - r.reclen)
      rw [hcons]
      refine ⟨?_, ?_, ?_, ?_⟩
      · simp only [List.cons_append, h1]
      · rw [sumRec_cons, h2]
      · simp only []
        omega
      · intro r' rest' _ _
        simp
    · have hcons : getdentsFill (r :: rest) cap = (0, [], r :: rest) := by
        simp only [getdentsFill, if_neg hle]
      rw [hcons]
      refine ⟨rfl, rfl, Nat.zero_le cap, ?_⟩
      intro r' rest' heq hle'
      injection heq with hr _
      rw [← hr] at hle'
      exact absurd hle' hle

theorem getdents_cons (r : DirRec) (rest : List DirRec) (cap : Nat) :
    getdents (r :: rest) cap
      = if r.reclen ≤ cap then .ok (getdentsFill (r :: rest) cap)
        else .error 22 := rfl

theorem openLoop_succ (f : Nat) (stream : List DirRec) (bufLen bytesUsed : Nat)
    (acc : List DirRec) (k : Nat) :
    openLoop (f + 1) stream bufLen bytesUsed acc k
      = if k = 0 then .ok ⟨acc, bufLen, bytesUsed⟩
        else match getdents stream (growIfNeeded bufLen bytesUsed - bytesUsed) with
          | .error e => .error e
          | .ok (k', taken, rest) =>
            openLoop f rest (growIfNeeded bufLen bytesUsed) (bytesUsed + k')
              (acc ++ taken) k' := rfl

theorem openLoop_spec : ∀ (fuel : Nat) (stream : List DirRec) (bufLen bytesUsed : Nat)
    (acc : List DirRec) (k : Nat),
    (∀ r ∈ stream, 0 < r.reclen ∧ r.reclen ≤ direntSize) →
    (stream.length + 2 ≤ fuel ∨ (k = 0 ∧ 1 ≤ fuel)) →
    bytesUsed ≤ bufLen →
    (k = 0 → stream = [] ∧ direntSize ≤ bufLen - bytesUsed) →
    ∃ L, openLoop fuel stream bufLen bytesUsed acc k
        = .ok ⟨acc ++ stream, L, bytesUsed + sumRec stream⟩
      ∧ bytesUsed + sumRec stream + direntSize ≤ L := by
  intro fuel
  induction fuel with
  | zero =>
    intro stream bufLen bytesUsed acc k _ hf _ _
    rcases hf with h | h
    · omega
    · omega
  | succ f ih =>
    intro stream bufLen bytesUsed acc k hv hf hb hk
    rw [openLoop_succ]
    by_cases hk0 : k = 0
    · obtain ⟨hs, hpad⟩ := hk hk0
      subst hs
      rw [if_pos hk0]
      refine ⟨bufLen, ?_, ?_⟩
      · simp [sumRec]
      · have hpad' : (280 : Nat) ≤ bufLen - bytesUsed := hpad
        simp only [sumRec_nil]
        show bytesUsed + 0 + 280 ≤ bufLen
        omega
    · rw [if_neg hk0]
      have hgrow : bytesUsed ≤ growIfNeeded bufLen bytesUsed ∧
          (280 : Nat) ≤ growIfNeeded bufLen bytesUsed - bytesUsed := by
        unfold growIfNeeded direntSize
        split <;> omega
      have hf' : stream.length + 2 ≤ f + 1 := by
        rcases hf with h | h
        · exact h
        · exact absurd h.1 hk0
      cases stream with
      | nil =>
        rw [show getdents [] (growIfNeeded bufLen bytesUsed - bytesUsed)
            = .ok (0, [], []) from rfl]
        simp only []
        obtain ⟨L, hok, hL⟩ := ih [] (growIfNeeded bufLen bytesUsed) (bytesUsed + 0)
          (acc ++ []) 0 (by simp) (Or.inr ⟨rfl, by omega⟩) (by omega)
          (fun _ => ⟨rfl, hgrow.2⟩)
        refine ⟨L, ?_, ?_⟩
        · rw [hok]
          simp
        · simpa using hL
      | cons r rest0 =>
        have hle : r.reclen ≤ growIfNeeded bufLen bytesUsed - bytesUsed :=
          le_trans (hv r (by simp)).2 hgrow.2
        rw [getdents_cons, if_pos hle]
        obtain ⟨h1, h2, h3, h4⟩ :=
          getdentsFill_spec (r :: rest0) (growIfNeeded bufLen bytesUsed - bytesUsed)
        set res := getdentsFill (r :: rest0) (growIfNeeded bufLen bytesUsed - bytesUsed)
          with hres
        simp only []
        have htne : res.2.1 ≠ [] := h4 r rest0 rfl hle
        have hkpos : 0 < res.1 := by
          rw [h2]
          exact sumRec_pos _ htne
            (fun x hx => (hv x (by rw [← h1]; exact List.mem_append_left _ hx)).1)
        have hlen : res.2.2.length + 2 ≤ f := by
          have hll := congrArg List.length h1
          simp only [List.length_append, List.length_cons] at hll
          have h1t : 1 ≤ res.2.1.length := by
            cases hres21 : res.2.1 with
            | nil => exact absurd hres21 htne
            | cons a b => simp
          have hf'' : rest0.length + 1 + 2 ≤ f + 1 := by simpa using hf'
          omega
        obtain ⟨L, hok, hL⟩ := ih res.2.2 (growIfNeeded bufLen bytesUsed)
          (bytesUsed + res.1) (acc ++ res.2.1) res.1
          (fun x hx => hv x (by rw [← h1]; exact List.mem_append_right _ hx))
          (Or.inl hlen)
          (by omega)
          (fun h0 => absurd h0 (by omega))
        have hrecs : (acc ++ res.2.1) ++ res.2.2 = acc ++ (r :: rest0) := by
          rw [List.append_assoc, h1]
        have hcnt : (bytesUsed + res.1) + sumRec res.2.2
            = bytesUsed + sumRec (r :: rest0) := by
          rw [h2, Nat.add_assoc, ← sumRec_append, h1]
        refine ⟨L, ?_, ?_⟩
        · rw [hok, hrecs, hcnt]
        · rw [hcnt] at hL
          exact hL

theorem openDir_spec (stream : List DirRec)
    (hv : ∀ r ∈ stream, 0 < r.reclen ∧ r.reclen ≤ direntSize) :
    ∃ L, Directory.openDir stream = .ok ⟨stream, L, sumRec stream⟩
      ∧ sumRec stream + direntSize ≤ L := by
  cases stream with
  | nil =>
    rw [show Directory.openDir [] = openLoop 2 [] 4096 0 [] 0 from rfl]
    obtain ⟨L, hok, hL⟩ := openLoop_spec 2 [] 4096 0 [] 0 (by simp)
      (Or.inr ⟨rfl, by omega⟩) (by omega) (fun _ => ⟨rfl, by decide⟩)
    refine ⟨L, ?_, ?_⟩
    · rw [hok]
      simp
    · simpa using hL
  | cons r rest0 =>
    have hle : r.reclen ≤ 4096 := le_trans (hv r (by simp)).2 (by decide)
    have hget : getdents (r :: rest0) 4096
        = .ok (getdentsFill (r :: rest0) 4096) := by
      rw [getdents_cons, if_pos hle]
    obtain ⟨h1, h2, h3, h4⟩ := getdentsFill_spec (r :: rest0) 4096
    unfold Directory.openDir
    rw [hget]
    set res := getdentsFill (r :: rest0) 4096 with hres
    simp only []
    have htne : res.2.1 ≠ [] := h4 r rest0 rfl hle
    obtain ⟨L, hok, hL⟩ := openLoop_spec (res.2.2.length + 2) res.2.2 4096 res.1
      res.2.1 res.1
      (fun x hx => hv x (by rw [← h1]; exact List.mem_append_right _ hx))
      (Or.inl (le_refl _))
      h3
      (fun h0 => by
        have hkpos : 0 < res.1 := by
          rw [h2]
          exact sumRec_pos _ htne
            (fun x hx => (hv x (by rw [← h1]; exact List.mem_append_left _ hx)).1)
        omega)
    have hcnt : res.1 + sumRec res.2.2 = sumRec (r :: rest0) := by
      rw [h2, ← sumRec_append, h1]
    refine ⟨L, ?_, ?_⟩
    · rw [hok, h1, hcnt]
    · rw [hcnt] at hL
      exact hL

theorem recAt_cons (r : DirRec) (rest : List DirRec) (off : Nat) :
    recAt (r :: rest) off
      = if off = 0 then some r
        else if off < r.reclen then none
        else recAt rest (off - r.reclen) := rfl

theorem recAt_append : ∀ (pre : List DirRec) (r : DirRec) (rest : List DirRec),
    (∀ x ∈ pre, 0 < x.reclen) →
    recAt (pre ++ r :: rest) (sumRec pre) = some r := by
  intro pre
  induction pre with
  | nil => intro r rest _; rfl
  | cons p pre' ih =>
    intro r rest hv
    have hp : 0 < p.reclen := hv p (by simp)
    rw [show (p :: pre') ++ r :: rest = p :: (pre' ++ r :: rest) from rfl, recAt_cons]
    rw [if_neg (by rw [sumRec_cons]; omega : ¬ sumRec (p :: pre') = 0)]
    rw [if_neg (by rw [sumRec_cons]; omega : ¬ sumRec (p :: pre') < p.reclen)]
    rw [show sumRec (p :: pre') - p.reclen = sumRec pre' by rw [sumRec_cons]; omega]
    exact ih r rest (fun x hx => hv x (by simp [hx]))

theorem iterAll_succ (d : Directory) (f off : Nat) :
    iterAll d (f + 1) off
      = match readReclenField d off with
        | none => none
        | some rl =>
          if off < d.bytesUsed then
            match recAt d.records off with
            | none => none
            | some r => (iterAll d f (off + rl)).map (r :: ·)
          else some [] := rfl

theorem iterAll_spec (d : Directory)
    (hv : ∀ x ∈ d.records, 0 < x.reclen)
    (hbu : d.bytesUsed = sumRec d.records)
    (hpad : d.bytesUsed + direntSize ≤ d.bufLen) :
    ∀ (rem pre : List DirRec) (fuel : Nat),
      d.records = pre ++ rem → rem.length < fuel →
      iterAll d fuel (sumRec pre) = some rem := by
  have hpad' : d.bytesUsed + 280 ≤ d.bufLen := hpad
  intro rem
  induction rem with
  | nil =>
    intro pre fuel hrec hfuel
    obtain ⟨f, rfl⟩ : ∃ f, fuel = f + 1 := ⟨fuel - 1, by omega⟩
    have hoff : sumRec pre = d.bytesUsed := by
      rw [hbu, hrec, sumRec_append, sumRec_nil]
      omega
    have hread : readReclenField d (sumRec pre) = some 0 := by
      unfold readReclenField
      rw [if_pos (by omega : sumRec pre + 18 ≤ d.bufLen)]
      rw [if_neg (by omega : ¬ sumRec pre < d.bytesUsed)]
    rw [iterAll_succ, hread]
    simp only []
    rw [if_neg (by omega : ¬ sumRec pre < d.bytesUsed)]
  | cons r rest ih =>
    intro pre fuel hrec hfuel
    obtain ⟨f, rfl⟩ : ∃ f, fuel = f + 1 := ⟨fuel - 1, by omega⟩
    have hvpre : ∀ x ∈ pre, 0 < x.reclen :=
      fun x hx => hv x (by rw [hrec]; exact List.mem_append_left _ hx)
    have hrpos : 0 < r.reclen :=
      hv r (by rw [hrec]; exact List.mem_append_right _ (by simp))
    have hsum : d.bytesUsed = sumRec pre + (r.reclen + sumRec rest) := by
      rw [hbu, hrec, sumRec_append, sumRec_cons]
    have hlt : sumRec pre < d.bytesUsed := by omega
    have hra : recAt d.records (sumRec pre) = some r := by
      rw [hrec]
      exact recAt_append pre r rest hvpre
    have hread : readReclenField d (sumRec pre) = some r.reclen := by
      unfold readReclenField
      rw [if_pos (by omega : sumRec pre + 18 ≤ d.bufLen)]
      rw [if_pos hlt, hra]
      rfl
    rw [iterAll_succ, hread]
    simp only []
    rw [if_pos hlt, hra]
    simp only []
    have hoff : sumRec pre + r.reclen = sumRec (pre ++ [r]) := by
      rw [sumRec_append]
      simp [sumRec]
    have hfuel2 : rest.length < f := by
      have : rest.length + 1 < f + 1 := by simpa using hfuel
      omega
    rw [hoff, ih (pre ++ [r]) f (by rw [hrec, List.append_assoc]; rfl) hfuel2]
    rfl

theorem iter_records (d : Directory)
    (hv : ∀ x ∈ d.records, 0 < x.reclen)
    (hbu : d.bytesUsed = sumRec d.records)
    (hpad : d.bytesUsed + direntSize ≤ d.bufLen) :
    d.iter = some d.records := by
  unfold Directory.iter
  have hlen : d.records.length < d.bytesUsed + 1 := by
    have := sumRec_ge_length d.records hv
    omega
  have := iterAll_spec d hv hbu hpad d.records [] (d.bytesUsed + 1) (by simp) hlen
  simpa [sumRec_nil] using this

theorem openDir_ok_shape (stream : List DirRec) (d : Directory)
    (hv : ∀ r ∈ stream, 0 < r.reclen ∧ r.reclen ≤ direntSize)
    (hopen : Directory.openDir stream = .ok d) :
    d.records = stream ∧ d.bytesUsed = sumRec stream
      ∧ d.bytesUsed + direntSize ≤ d.bufLen := by
  obtain ⟨L, hok, hL⟩ := openDir_spec stream hv
  rw [hopen] at hok
  injection hok with h
  rw [h]
  exact ⟨rfl, rfl, hL⟩

/-- C3.  For any kernel record stream with positive record lengths bounded by
the maximum record size whose total bytes exceed the initial 4096-byte
allocation, opening succeeds and iterating yields exactly the records present,
each once and in order, wherever the 4096-byte growth boundaries fall; the
read loop grows the buffer exactly when the remaining free capacity is below
one maximum record size, and returns as soon as a call reports 0 bytes. -/
theorem C3_enumeration_exact (stream : List DirRec)
    (hv : ∀ r ∈ stream, 0 < r.reclen ∧ r.reclen ≤ direntSize)
    (_hbig : 4096 < sumRec stream) :
    (∃ d, Directory.openDir stream = .ok d ∧ d.records = stream
      ∧ d.iter = some stream) ∧
    (∀ bufLen bytesUsed : Nat, bufLen - bytesUsed < direntSize →
      growIfNeeded bufLen bytesUsed = bufLen + 4096) ∧
    (∀ bufLen bytesUsed : Nat, direntSize ≤ bufLen - bytesUsed →
      growIfNeeded bufLen bytesUsed = bufLen) ∧
    (∀ (fuel : Nat) (stream2 acc : List DirRec) (bufLen bytesUsed : Nat),
      openLoop (fuel + 1) stream2 bufLen bytesUsed acc 0
        = .ok ⟨acc, bufLen, bytesUsed⟩) := by
  refine ⟨?_, ?_, ?_, ?_⟩
  · obtain ⟨L, hok, hL⟩ := openDir_spec stream hv
    refine ⟨⟨stream, L, sumRec stream⟩, hok, rfl, ?_⟩
    exact iter_records _ (fun x hx => (hv x hx).1) rfl hL
  · intro bufLen bytesUsed h
    unfold growIfNeeded
    rw [if_pos h]
  · intro bufLen bytesUsed h
    unfold growIfNeeded
    rw [if_neg (by omega)]
  · intro fuel stream2 acc bufLen bytesUsed
    rw [openLoop_succ, if_pos rfl]

/-- Witness for C3: 20 records of 280 bytes (5600 bytes, two buffer growth
cycles) enumerate exactly. -/
theorem C3_witness :
    (∀ r ∈ List.replicate 20 (⟨280, 8, [120]⟩ : DirRec),
      0 < r.reclen ∧ r.reclen ≤ direntSize) ∧
    4096 < sumRec (List.replicate 20 (⟨280, 8, [120]⟩ : DirRec)) ∧
    (∃ d, Directory.openDir (List.replicate 20 (⟨280, 8, [120]⟩ : DirRec)) = .ok d
      ∧ d.records = List.replicate 20 (⟨280, 8, [120]⟩ : DirRec)
      ∧ d.iter = some (List.replicate 20 (⟨280, 8, [120]⟩ : DirRec))) :=
  ⟨by decide, by decide,
    (C3_enumeration_exact (List.replicate 20 ⟨280, 8, [120]⟩)
      (by decide) (by decide)).1⟩

/-- C8.  Every `Directory` produced by `open` keeps at least one maximum
record size of zero bytes past the valid region, so the iterator's read of
the record-length field — performed on every step, including the terminating
one at `offset = bytes_used` — stays inside the allocated, initialized
buffer: every offset up to `bytes_used` is readable, reads in the padding
return 0, and the full iteration succeeds. -/
theorem C8_padding_invariant (stream : List DirRec) (d : Directory)
    (hv : ∀ r ∈ stream, 0 < r.reclen ∧ r.reclen ≤ direntSize)
    (hopen : Directory.openDir stream = .ok d) :
    direntSize ≤ d.bufLen - d.bytesUsed ∧
    (∀ off, off ≤ d.bytesUsed → (readReclenField d off).isSome = true) ∧
    (∀ off, d.bytesUsed ≤ off → off + 18 ≤ d.bufLen →
      readReclenField d off = some 0) ∧
    d.iter = some stream := by
  obtain ⟨hrec, hbu, hpad⟩ := openDir_ok_shape stream d hv hopen
  have hpad' : d.bytesUsed + 280 ≤ d.bufLen := hpad
  refine ⟨by omega, ?_, ?_, ?_⟩
  · intro off hoff
    unfold readReclenField
    rw [if_pos (by omega : off + 18 ≤ d.bufLen)]
    rfl
  · intro off h1 h2
    unfold readReclenField
    rw [if_pos h2, if_neg (by omega : ¬ off < d.bytesUsed)]
  · rw [← hrec]
    exact iter_records d (fun x hx => (hv x (hrec ▸ hx)).1) (hrec ▸ hbu) hpad

/-- Witness for C8 at a concrete two-record stream. -/
theorem C8_witness :
    (∀ r ∈ [(⟨280, 8, [97]⟩ : DirRec), ⟨100, 4, [98]⟩],
      0 < r.reclen ∧ r.reclen ≤ direntSize) ∧
    Directory.openDir [(⟨280, 8, [97]⟩ : DirRec), ⟨100, 4, [98]⟩]
      = .ok ⟨[⟨280, 8, [97]⟩, ⟨100, 4, [98]⟩], 4096, 380⟩ ∧
    (direntSize ≤ (4096 : Nat) - 380 ∧
      (∀ off, off ≤ (380 : Nat) →
        (readReclenField ⟨[⟨280, 8, [97]⟩, ⟨100, 4, [98]⟩], 4096, 380⟩ off).isSome
          = true) ∧
      (∀ off, (380 : Nat) ≤ off → off + 18 ≤ 4096 →
        readReclenField ⟨[⟨280, 8, [97]⟩, ⟨100, 4, [98]⟩], 4096, 380⟩ off = some 0) ∧
      Directory.iter ⟨[⟨280, 8, [97]⟩, ⟨100, 4, [98]⟩], 4096, 380⟩
        = some [⟨280, 8, [97]⟩, ⟨100, 4, [98]⟩]) :=
  ⟨by decide, by decide,
    C8_padding_invariant [⟨280, 8, [97]⟩, ⟨100, 4, [98]⟩]
      ⟨[⟨280, 8, [97]⟩, ⟨100, 4, [98]⟩], 4096, 380⟩ (by decide) (by decide)⟩

end Fls
